import Mathlib

/-!
Verification of `scripts/generate-behavior-model.py`.

The script scans IDL ("Smithy") text with regular expressions and assembles a
behavior model.  The shallow embedding below works at the level of the streams
of regex matches the scanners produce: each Python regex scan is represented by
the list of its matches (in document order), and every piece of post-match
logic — trait extraction from a match, value parsing, dictionary accumulation,
overlay merging, precedence conditionals, default synthesis, sorting and final
formatting — is translated directly from the source.

Python dictionaries are modelled as insertion-ordered association lists
(`dictSet` replaces in place or appends, exactly like `d[k] = v`); the Python
`set` of sensitive types is modelled as a deduplicated insertion-ordered list
(only membership and its sorted image are ever observed).  `sorted(...)` is
modelled by a structural insertion sort over the code-point lexicographic
string order, which agrees with Python's string comparison; on the
distinct-key lists being sorted the result is the same for any comparison
sort.
-/

/-! ### Code-point lexicographic string order (Python string comparison) -/

/-- Lexicographic strict order on character lists, comparing code points. -/
def charListLt : List Char → List Char → Bool
  | [], [] => false
  | [], _ :: _ => true
  | _ :: _, [] => false
  | a :: as, b :: bs =>
    if a < b then true
    else if b < a then false
    else charListLt as bs

/-- Strict lexicographic order on strings (Python's `<` on `str`). -/
def strLt (a b : String) : Bool := charListLt a.data b.data

/-- Non-strict lexicographic order on strings (Python's `<=` on `str`). -/
def strLe (a b : String) : Bool := !(strLt b a)

/-! ### Substring containment (Python's `in` on `str`) -/

/-- Whether `p` is a prefix of `s`, on character lists. -/
def charListHasPfx : List Char → List Char → Bool
  | [], _ => true
  | _ :: _, [] => false
  | a :: p, b :: s => a == b && charListHasPfx p s

/-- Whether `p` occurs as a contiguous run inside `s`, on character lists. -/
def charListHasSub (p : List Char) : List Char → Bool
  | [] => charListHasPfx p []
  | c :: rest => charListHasPfx p (c :: rest) || charListHasSub p rest

/-- Python's substring test `pat in s`. -/
def containsSubstr (s pat : String) : Bool := charListHasSub pat.data s.data

/-! ### Insertion-ordered dictionaries (Python `dict`) -/

/-- Python assignment `d[k] = v`: replace in place if the key is present, else append. -/
def dictSet {α : Type} (d : List (String × α)) (k : String) (v : α) :
    List (String × α) :=
  match d with
  | [] => [(k, v)]
  | (k', v') :: rest => if k' = k then (k, v) :: rest else (k', v') :: dictSet rest k v

/-- Python lookup `d.get(k)` / `k in d`: first (hence unique) binding of `k`. -/
def dictGet? {α : Type} (d : List (String × α)) (k : String) : Option α :=
  match d with
  | [] => none
  | (k', v) :: rest => if k' = k then some v else dictGet? rest k

/-! ### Values of overlay trait payloads -/

/-- A parsed trait-payload value: Python `str`, `int` or `bool`. -/
inductive Value where
  | str (s : String)
  | int (n : Nat)
  | bool (b : Bool)
deriving Repr, DecidableEq

/-- A flat key→value payload of a structured trait (Python `dict[str, Any]`). -/
abbrev Payload := List (String × Value)

/-! ### Regex matches

Each scanner's regex is represented by the list of its matches, in document
order, with one structure per match carrying the capture groups. -/

/-- One match of the operation pattern
`((?:@[a-zA-Z]+(?:\([^)]*\))?\s*\n)*)operation\s+(\w+)\s*\x7b`:
group 1 is the block of annotation lines, group 2 the operation name. -/
structure OpMatch where
  traitsBlock : String
  name : String
deriving Repr, DecidableEq

/-- One match of the key-value pattern inside a trait body, with the value as
captured: group 2 (quoted contents), group 3 (digit run) or group 4 (word).
Exactly one of the three value groups matches, so the match is a tagged
string. -/
inductive RawValue where
  | quoted (s : String)
  | digits (s : String)
  | word (s : String)
deriving Repr, DecidableEq

/-- The raw captured text of whichever value group matched
(`kv_match.group(2) or kv_match.group(3) or kv_match.group(4)`; all three
groups capture at least one character, so the result is the matched text). -/
def RawValue.text : RawValue → String
  | .quoted s => s
  | .digits s => s
  | .word s => s

/-- One key-value match (`kv_pattern`). -/
structure KVMatch where
  key : String
  val : RawValue
deriving Repr, DecidableEq

/-- One match of `apply\s+(\w+)\s+@(\w+)\(\x7b([^\x7d]+)\x7d\)`: the target
operation, the trait name, and the body already scanned by `kv_pattern`. -/
structure ApplyMatch where
  target : String
  traitName : String
  body : List KVMatch
deriving Repr, DecidableEq

/-- One match of the member pattern `(\w+):\s*(\w+)` inside a structure body. -/
structure MemberMatch where
  fieldName : String
  typeName : String
deriving Repr, DecidableEq

/-- One match of `structure\s+(\w+)\s*\x7b([^\x7d]+)\x7d`: the structure name
and its body already scanned by the member pattern. -/
structure StructMatch where
  name : String
  members : List MemberMatch
deriving Repr, DecidableEq

/-! ### Trait Scanner (`extract_operations_with_traits`) -/

/-- The accumulating per-operation record `op_info` / `op_traits`.  Only the
keys `readonly`, `idempotent` (set by the trait scanner) and `pagination`,
`retry`, `idempotency` (set by the overlay merge) ever occur in the Python
dict, so it is modelled as a record of five optional fields; `none` means the
key is absent. -/
structure OpTraits where
  readonly : Option Bool := none
  idempotent : Option Bool := none
  pagination : Option Payload := none
  retry : Option Payload := none
  idempotency : Option Payload := none
deriving Repr, DecidableEq

/-- The body of the scanner loop: build `op_info` from the captured traits
block (`'@readonly' in traits_block`, `'@idempotent' in traits_block`). -/
def opInfoOf (traits_block : String) : OpTraits :=
  let o1 : OpTraits := {}
  let o2 := if containsSubstr traits_block "@readonly"
    then { o1 with readonly := some true } else o1
  if containsSubstr traits_block "@idempotent"
    then { o2 with idempotent := some true } else o2

/-- One iteration of the scanner loop: `operations[op_name] = op_info`. -/
def opScanStep (ops : List (String × OpTraits)) (m : OpMatch) : List (String × OpTraits) :=
  dictSet ops m.name (opInfoOf m.traitsBlock)

/-- The function `extract_operations_with_traits`: one entry per matched operation header. -/
def extract_operations_with_traits (ms : List OpMatch) : List (String × OpTraits) :=
  ms.foldl opScanStep []

/-! ### Overlay Trait Scanner (`extract_overlay_traits`) -/

/-- Python `int(value)` on a decimal digit string. -/
def strToNat (s : String) : Nat :=
  s.data.foldl (fun n c => n * 10 + (c.toNat - 48)) 0

/-- Conversion of a captured value (`value.isdigit()` / `'true'` / `'false'`
tests on the matched text).  Note the conversion inspects only the text, not
which group captured it.  Python's `str.isdigit` also accepts some non-ASCII
digit characters; the documents are ASCII IDL text, where it coincides with
`Char.isDigit`. -/
def parseTraitValue (v : RawValue) : Value :=
  let s := v.text
  if s.length > 0 && s.data.all Char.isDigit then .int (strToNat s)
  else if s = "true" then .bool true
  else if s = "false" then .bool false
  else .str s

/-- The inner loop over `kv_pattern` matches: `trait_values[key] = value`. -/
def parseTraitBody (kvs : List KVMatch) : Payload :=
  kvs.foldl (fun tv kv => dictSet tv kv.key (parseTraitValue kv.val)) []

/-- Per-operation map of structured traits extracted from one overlay file:
operation name → (trait name → payload). -/
abbrev OverlayTraits := List (String × List (String × Payload))

/-- One iteration of the apply-statement loop: ensure the target has an entry
and set `traits[op_name][trait_name] = trait_values`. -/
def applyStep (traits : OverlayTraits) (m : ApplyMatch) : OverlayTraits :=
  dictSet traits m.target
    (dictSet ((dictGet? traits m.target).getD []) m.traitName (parseTraitBody m.body))

/-- The function `extract_overlay_traits`: a repeated (operation, trait) pair within one
document is overwritten, last occurrence wins. -/
def extract_overlay_traits (ms : List ApplyMatch) : OverlayTraits :=
  ms.foldl applyStep []

/-! ### Sensitivity Scanner (`extract_sensitive_types`) -/

/-- The function `extract_sensitive_types`: collect the set of matched type names.  The
Python `set` is modelled as a deduplicated list; only membership and the
sorted image are observed downstream. -/
def extract_sensitive_types (names : List String) : List String :=
  names.foldl (fun s n => if n ∈ s then s else s ++ [n]) []

/-! ### Structure Redaction Resolver (`extract_structures_with_sensitive_fields`) -/

/-- The inner loop over member matches: append `$.<fieldName>` for each member
whose type is in the sensitive set. -/
def sensFieldsOf (members : List MemberMatch) (sensitive_types : List String) :
    List String :=
  members.foldl
    (fun acc m => if m.typeName ∈ sensitive_types then acc ++ ["$." ++ m.fieldName] else acc)
    []

/-- One iteration of the structure loop: an entry is created only when the
collected field list is non-empty (`if sensitive_fields:`). -/
def redactStep (sensitive_types : List String) (rules : List (String × List String))
    (s : StructMatch) : List (String × List String) :=
  let fields := sensFieldsOf s.members sensitive_types
  if fields = [] then rules else dictSet rules s.name fields

/-- The function `extract_structures_with_sensitive_fields`. -/
def extract_structures_with_sensitive_fields
    (ss : List StructMatch) (sensitive_types : List String) :
    List (String × List String) :=
  ss.foldl (redactStep sensitive_types) []

/-! ### Prose Pagination Detector (`detect_pagination_from_docs`) -/

/-- The function `detect_pagination_from_docs`: each match contributes
`pagination_ops[op_name] = {'style': 'link'}`. -/
def detect_pagination_from_docs (names : List String) : List (String × Payload) :=
  names.foldl (fun d n => dictSet d n [("style", Value.str "link")]) []

/-! ### Model Assembler (`build_behavior_model`) -/

/-- The body of the overlay-merge loop for one operation: copy the
`pagination`, `retry` and `idempotency` structured traits (and only those)
into the operation's record, unconditionally overwriting. -/
def mergeOverlayOp (cur : OpTraits) (traits : List (String × Payload)) : OpTraits :=
  let t1 := match dictGet? traits "pagination" with
    | some p => { cur with pagination := some p }
    | none => cur
  let t2 := match dictGet? traits "retry" with
    | some p => { t1 with retry := some p }
    | none => t1
  match dictGet? traits "idempotency" with
  | some p => { t2 with idempotency := some p }
  | none => t2

/-- One iteration of the overlay-merge loop: create an empty record if the
target operation is unknown (`if op_name not in operations`), then merge its
structured traits. -/
def mergeStep (ops : List (String × OpTraits)) (e : String × List (String × Payload)) :
    List (String × OpTraits) :=
  dictSet ops e.1 (mergeOverlayOp ((dictGet? ops e.1).getD {}) e.2)

/-- The overlay-merge loop over one extracted overlay document. -/
def mergeOverlay (ops : List (String × OpTraits)) (ov : OverlayTraits) :
    List (String × OpTraits) :=
  ov.foldl mergeStep ops

/-- One iteration of the documentation-pagination loop
(`if op_name in operations and 'pagination' not in operations[op_name]`). -/
def proseStep (ops : List (String × OpTraits)) (e : String × Payload) :
    List (String × OpTraits) :=
  match dictGet? ops e.1 with
  | some t => if t.pagination = none then dictSet ops e.1 { t with pagination := some e.2 } else ops
  | none => ops

/-- Documentation-based pagination, applied only where the operation exists
and no `pagination` trait was already set. -/
def applyDocPagination (ops : List (String × OpTraits))
    (doc_pagination : List (String × Payload)) : List (String × OpTraits) :=
  doc_pagination.foldl proseStep ops

/-- Truthiness of `op_traits.get(k)` for a flag key: `None` and `False` are
falsy. -/
def truthy : Option Bool → Bool
  | some b => b
  | none => false

/-- One finalized operation entry of the output model.  Every field is
optional exactly as in the emitted JSON object; the code always assigns
`retry`, which the theorems below establish rather than the type. -/
structure OpEntry where
  readonly : Option Bool := none
  idempotent : Option Value := none
  pagination : Option Payload := none
  retry : Option Payload := none
deriving Repr, DecidableEq

/-- The body of the final formatting loop (`op_entry` construction with
default retry synthesis). -/
def formatOp (op_traits : OpTraits) : OpEntry :=
  let e1 : OpEntry := {}
  let e2 := if truthy op_traits.readonly then { e1 with readonly := some true } else e1
  let e3 :=
    if truthy op_traits.idempotent then { e2 with idempotent := some (Value.bool true) }
    else match op_traits.idempotency with
      | some p => { e2 with idempotent := some ((dictGet? p "supported").getD (Value.bool false)) }
      | none => e2
  let e4 := match op_traits.pagination with
    | some p => { e3 with pagination := some p }
    | none => e3
  match op_traits.retry with
  | some p => { e4 with retry := some p }
  | none =>
    if truthy op_traits.readonly then
      { e4 with retry := some [("max", Value.int 3), ("base_delay_seconds", Value.int 1), ("backoff", Value.str "exp+jitter")] }
    else { e4 with retry := some [("max", Value.int 0)] }

/-- Stable insertion into a list sorted by `le`. -/
def insertSortedBy {α : Type} (le : α → α → Bool) (x : α) : List α → List α
  | [] => [x]
  | y :: ys => if le x y then x :: y :: ys else y :: insertSortedBy le x ys

/-- Insertion sort; models Python's `sorted` (on the distinct-key lists being
sorted, every comparison sort yields the same result). -/
def sortBy {α : Type} (le : α → α → Bool) : List α → List α
  | [] => []
  | x :: xs => insertSortedBy le x (sortBy le xs)

/-- The final output model.  `operations` is insertion-ordered like the JSON
object the script builds, i.e. sorted by operation name. -/
structure BehaviorModel where
  schema : String
  version : String
  generated : Bool
  operations : List (String × OpEntry)
  redaction : List (String × List String)
  sensitiveTypes : List String
deriving Repr, DecidableEq

/-- The inputs of one run: the primary document as seen by each of its four
scanners (lists of regex matches in document order) and the overlay documents
(in directory-listing order, the two non-behavioral files already excluded),
each as its list of `apply` matches. -/
structure SpecInput where
  opMatches : List OpMatch
  pagMatches : List String
  sensMatches : List String
  structMatches : List StructMatch
  overlays : List (List ApplyMatch)
deriving Repr, DecidableEq

/-- The function `build_behavior_model`: the full assembly pipeline. -/
def build_behavior_model (inp : SpecInput) : BehaviorModel :=
  let operations := extract_operations_with_traits inp.opMatches
  let doc_pagination := detect_pagination_from_docs inp.pagMatches
  let sensitive_types := extract_sensitive_types inp.sensMatches
  let redaction_rules := extract_structures_with_sensitive_fields inp.structMatches sensitive_types
  let operations := inp.overlays.foldl
    (fun ops ov => mergeOverlay ops (extract_overlay_traits ov)) operations
  let operations := applyDocPagination operations doc_pagination
  { schema := "https://basecamp.com/schemas/behavior-model.json"
    version := "1.0.0"
    generated := true
    operations :=
      (sortBy (fun a b => strLe a.1 b.1) operations).map (fun e => (e.1, formatOp e.2))
    redaction := redaction_rules
    sensitiveTypes := sortBy strLe sensitive_types }

/-! ### Dictionary lemmas -/

theorem dictGet?_dictSet_self {α : Type} (d : List (String × α)) (k : String) (v : α) :
    dictGet? (dictSet d k v) k = some v := by
  induction d with
  | nil => simp [dictSet, dictGet?]
  | cons hd tl ih =>
    obtain ⟨k', v'⟩ := hd
    by_cases h : k' = k
    · simp [dictSet, dictGet?, h]
    · simp [dictSet, dictGet?, h, ih]

theorem dictGet?_dictSet_ne {α : Type} (d : List (String × α)) (k : String) (v : α)
    (n : String) (h : n ≠ k) : dictGet? (dictSet d k v) n = dictGet? d n := by
  induction d with
  | nil => simp [dictSet, dictGet?, Ne.symm h]
  | cons hd tl ih =>
    obtain ⟨k', v'⟩ := hd
    by_cases h1 : k' = k
    · subst h1
      simp [dictSet, dictGet?, Ne.symm h]
    · by_cases h2 : k' = n <;> simp [dictSet, dictGet?, h1, h2, ih, h]

theorem mem_keys_dictSet {α : Type} (d : List (String × α)) (k : String) (v : α)
    (n : String) : n ∈ (dictSet d k v).map Prod.fst ↔ n = k ∨ n ∈ d.map Prod.fst := by
  induction d with
  | nil => simp [dictSet]
  | cons hd tl ih =>
    obtain ⟨k', v'⟩ := hd
    by_cases h : k' = k
    · subst h
      simp [dictSet]
    · simp [dictSet, h, ih]
      tauto

theorem nodup_keys_dictSet {α : Type} (d : List (String × α)) (k : String) (v : α)
    (h : (d.map Prod.fst).Nodup) : ((dictSet d k v).map Prod.fst).Nodup := by
  induction d with
  | nil => simp [dictSet]
  | cons hd tl ih =>
    obtain ⟨k', v'⟩ := hd
    simp only [List.map_cons, List.nodup_cons] at h
    by_cases hk : k' = k
    · subst hk
      simpa [dictSet] using h
    · simp only [dictSet, if_neg hk, List.map_cons, List.nodup_cons]
      refine ⟨fun contra => ?_, ih h.2⟩
      rcases (mem_keys_dictSet tl k v k').mp contra with h1 | h1
      · exact hk h1
      · exact h.1 h1

theorem dictGet?_isSome_iff {α : Type} (d : List (String × α)) (n : String) :
    (dictGet? d n).isSome = true ↔ n ∈ d.map Prod.fst := by
  induction d with
  | nil => simp [dictGet?]
  | cons hd tl ih =>
    obtain ⟨k', v'⟩ := hd
    by_cases h : k' = n
    · simp [dictGet?, h]
    · simp [dictGet?, h, Ne.symm h, ih]

theorem mem_of_dictGet? {α : Type} (d : List (String × α)) (n : String) (v : α)
    (h : dictGet? d n = some v) : (n, v) ∈ d := by
  induction d with
  | nil => simp [dictGet?] at h
  | cons hd tl ih =>
    obtain ⟨k', v'⟩ := hd
    by_cases hk : k' = n
    · subst hk
      simp [dictGet?] at h
      subst h
      exact List.mem_cons_self _ _
    · simp [dictGet?, hk] at h
      exact List.mem_cons_of_mem _ (ih h)

/-! ### The lexicographic order agrees with the ambient string order -/

theorem charListLt_iff (l1 l2 : List Char) : charListLt l1 l2 = true ↔ l1.lt l2 := by
  induction l1 generalizing l2 with
  | nil =>
    cases l2 with
    | nil =>
      constructor
      · intro h
        simp [charListLt] at h
      · intro h
        nomatch h
    | cons b bs =>
      simp only [charListLt]
      exact iff_of_true trivial (List.lt.nil b bs)
  | cons a as ih =>
    cases l2 with
    | nil =>
      constructor
      · intro h
        simp [charListLt] at h
      · intro h
        nomatch h
    | cons b bs =>
      by_cases h1 : a < b
      · simp only [charListLt, if_pos h1]
        exact iff_of_true trivial (List.lt.head _ _ h1)
      · by_cases h2 : b < a
        · simp only [charListLt, if_neg h1, if_pos h2]
          constructor
          · intro h
            nomatch h
          · intro h
            cases h with
            | head _ _ hab => exact absurd hab h1
            | tail _ hh2 _ => exact absurd h2 hh2
        · simp only [charListLt, if_neg h1, if_neg h2, ih bs]
          constructor
          · intro h
            exact List.lt.tail h1 h2 h
          · intro h
            cases h with
            | head _ _ hab => exact absurd hab h1
            | tail _ _ htl => exact htl

theorem strLt_iff (a b : String) : strLt a b = true ↔ a < b := by
  have h1 : a < b ↔ a.data.lt b.data := by
    rw [String.lt_iff_toList_lt, List.lt_iff_lex_lt]
    exact Iff.rfl
  rw [h1]
  exact charListLt_iff a.data b.data

theorem strLe_iff (a b : String) : strLe a b = true ↔ a ≤ b := by
  have h1 : a ≤ b ↔ ¬ b < a := Iff.rfl
  rw [h1, ← strLt_iff b a]
  show (!strLt b a) = true ↔ ¬ strLt b a = true
  simp

theorem strLe_total (a b : String) : strLe a b = true ∨ strLe b a = true := by
  rcases le_total a b with h | h
  · exact Or.inl ((strLe_iff a b).mpr h)
  · exact Or.inr ((strLe_iff b a).mpr h)

theorem strLe_trans (a b c : String) (h1 : strLe a b = true) (h2 : strLe b c = true) :
    strLe a c = true :=
  (strLe_iff a c).mpr (le_trans ((strLe_iff a b).mp h1) ((strLe_iff b c).mp h2))

/-! ### Sorting lemmas -/

theorem perm_insertSortedBy {α : Type} (le : α → α → Bool) (x : α) (l : List α) :
    List.Perm (insertSortedBy le x l) (x :: l) := by
  induction l with
  | nil => simp [insertSortedBy]
  | cons y ys ih =>
    by_cases h : le x y = true
    · simp [insertSortedBy, h]
    · simp only [insertSortedBy, if_neg h]
      exact (ih.cons y).trans (List.Perm.swap x y ys)

theorem perm_sortBy {α : Type} (le : α → α → Bool) (l : List α) :
    List.Perm (sortBy le l) l := by
  induction l with
  | nil => simp [sortBy]
  | cons x xs ih => exact (perm_insertSortedBy le x (sortBy le xs)).trans (ih.cons x)

theorem pairwise_insertSortedBy {α : Type} (le : α → α → Bool)
    (htot : ∀ a b, le a b = true ∨ le b a = true)
    (htr : ∀ a b c, le a b = true → le b c = true → le a c = true)
    (x : α) (l : List α) (hl : l.Pairwise (fun a b => le a b = true)) :
    (insertSortedBy le x l).Pairwise (fun a b => le a b = true) := by
  induction l with
  | nil => simp [insertSortedBy]
  | cons y ys ih =>
    rcases List.pairwise_cons.mp hl with ⟨hy, hys⟩
    by_cases h : le x y = true
    · simp only [insertSortedBy, if_pos h]
      refine List.pairwise_cons.mpr ⟨?_, hl⟩
      intro z hz
      rcases List.mem_cons.mp hz with rfl | hz'
      · exact h
      · exact htr x y z h (hy z hz')
    · have hyx : le y x = true := (htot x y).resolve_left h
      simp only [insertSortedBy, if_neg h]
      refine List.pairwise_cons.mpr ⟨?_, ih hys⟩
      intro z hz
      rcases List.mem_cons.mp ((perm_insertSortedBy le x ys).mem_iff.mp hz) with rfl | hz'
      · exact hyx
      · exact hy z hz'

theorem pairwise_sortBy {α : Type} (le : α → α → Bool)
    (htot : ∀ a b, le a b = true ∨ le b a = true)
    (htr : ∀ a b c, le a b = true → le b c = true → le a c = true)
    (l : List α) : (sortBy le l).Pairwise (fun a b => le a b = true) := by
  induction l with
  | nil => simp [sortBy]
  | cons x xs ih => exact pairwise_insertSortedBy le htot htr x _ ih

/-! ### Trait Scanner lemmas -/

/-- The last operation match carrying a given name: its record is the one that
survives the repeated `operations[op_name] = op_info` assignments. -/
def lastScan (ms : List OpMatch) (n : String) : Option OpMatch :=
  match ms with
  | [] => none
  | m :: rest =>
    match lastScan rest n with
    | some r => some r
    | none => if m.name = n then some m else none

theorem extractOps_foldl_get (ms : List OpMatch) (acc : List (String × OpTraits)) (n : String) :
    dictGet? (ms.foldl opScanStep acc) n =
      match lastScan ms n with
      | some m => some (opInfoOf m.traitsBlock)
      | none => dictGet? acc n := by
  induction ms generalizing acc with
  | nil => simp [lastScan]
  | cons m rest ih =>
    simp only [List.foldl_cons, lastScan, ih]
    cases h : lastScan rest n with
    | some r => simp
    | none =>
      simp only
      by_cases hm : m.name = n
      · subst hm
        simp [opScanStep, dictGet?_dictSet_self]
      · simp [hm, opScanStep, dictGet?_dictSet_ne _ _ _ _ (Ne.symm hm)]

theorem lastScan_isSome (ms : List OpMatch) (m : OpMatch) (hm : m ∈ ms) :
    (lastScan ms m.name).isSome = true := by
  induction ms with
  | nil => simp at hm
  | cons x rest ih =>
    simp only [lastScan]
    cases h : lastScan rest m.name with
    | some r => simp
    | none =>
      rcases List.mem_cons.mp hm with rfl | hmem
      · simp
      · have h2 := ih hmem
        rw [h] at h2
        simp at h2

theorem lastScan_mem (ms : List OpMatch) (n : String) (m : OpMatch)
    (h : lastScan ms n = some m) : m ∈ ms ∧ m.name = n := by
  induction ms with
  | nil => simp [lastScan] at h
  | cons x rest ih =>
    cases h2 : lastScan rest n with
    | some r =>
      simp only [lastScan, h2, Option.some.injEq] at h
      subst h
      obtain ⟨h3, h4⟩ := ih h2
      exact ⟨List.mem_cons_of_mem _ h3, h4⟩
    | none =>
      simp only [lastScan, h2] at h
      by_cases hx : x.name = n
      · rw [if_pos hx] at h
        injection h with h
        subst h
        exact ⟨List.mem_cons_self _ _, hx⟩
      · rw [if_neg hx] at h
        exact absurd h (by simp)

theorem extractOps_get (ms : List OpMatch) (n : String) :
    dictGet? (extract_operations_with_traits ms) n =
      match lastScan ms n with
      | some m => some (opInfoOf m.traitsBlock)
      | none => none :=
  extractOps_foldl_get ms [] n

theorem opInfoOf_readonly (tb : String) :
    (opInfoOf tb).readonly = if containsSubstr tb "@readonly" then some true else none := by
  by_cases h1 : containsSubstr tb "@readonly" = true <;>
    by_cases h2 : containsSubstr tb "@idempotent" = true <;>
      simp [opInfoOf, h1, h2]

theorem opInfoOf_idempotent (tb : String) :
    (opInfoOf tb).idempotent = if containsSubstr tb "@idempotent" then some true else none := by
  by_cases h1 : containsSubstr tb "@readonly" = true <;>
    by_cases h2 : containsSubstr tb "@idempotent" = true <;>
      simp [opInfoOf, h1, h2]

theorem opInfoOf_overlay_fields (tb : String) :
    (opInfoOf tb).pagination = none ∧ (opInfoOf tb).retry = none ∧
      (opInfoOf tb).idempotency = none := by
  by_cases h1 : containsSubstr tb "@readonly" = true <;>
    by_cases h2 : containsSubstr tb "@idempotent" = true <;>
      simp [opInfoOf, h1, h2]

/-! ### Generic fold lemmas over dictionaries -/

theorem foldl_keys_mono {α β : Type} (g : List (String × α) → β → List (String × α))
    (hg : ∀ d x n, n ∈ d.map Prod.fst → n ∈ (g d x).map Prod.fst)
    (l : List β) (acc : List (String × α)) (n : String)
    (h : n ∈ acc.map Prod.fst) : n ∈ (l.foldl g acc).map Prod.fst := by
  induction l generalizing acc with
  | nil => simpa using h
  | cons x xs ih => exact ih _ (hg acc x n h)

theorem foldl_keys_nodup {α β : Type} (g : List (String × α) → β → List (String × α))
    (hg : ∀ d x, (d.map Prod.fst).Nodup → ((g d x).map Prod.fst).Nodup)
    (l : List β) (acc : List (String × α))
    (h : (acc.map Prod.fst).Nodup) : ((l.foldl g acc).map Prod.fst).Nodup := by
  induction l generalizing acc with
  | nil => simpa using h
  | cons x xs ih => exact ih _ (hg acc x h)

/-! ### Overlay Trait Scanner lemmas -/

theorem mem_keys_applyStep_foldl (doc : List ApplyMatch) (acc : OverlayTraits)
    (m : ApplyMatch) (hm : m ∈ doc) :
    m.target ∈ (doc.foldl applyStep acc).map Prod.fst := by
  induction doc generalizing acc with
  | nil => simp at hm
  | cons x xs ih =>
    rcases List.mem_cons.mp hm with rfl | h
    · refine foldl_keys_mono applyStep ?_ xs _ _ ?_
      · intro d y n hn
        exact (mem_keys_dictSet d y.target _ n).mpr (Or.inr hn)
      · exact (mem_keys_dictSet acc m.target _ m.target).mpr (Or.inl rfl)
    · exact ih _ h

theorem mem_keys_extract_overlay (doc : List ApplyMatch) (m : ApplyMatch) (hm : m ∈ doc) :
    m.target ∈ (extract_overlay_traits doc).map Prod.fst :=
  mem_keys_applyStep_foldl doc [] m hm

/-! ### Overlay merge lemmas -/

theorem mergeOverlayOp_readonly (cur : OpTraits) (traits : List (String × Payload)) :
    (mergeOverlayOp cur traits).readonly = cur.readonly := by
  cases h1 : dictGet? traits "pagination" <;>
    cases h2 : dictGet? traits "retry" <;>
      cases h3 : dictGet? traits "idempotency" <;>
        simp [mergeOverlayOp, h1, h2, h3]

theorem mergeOverlayOp_idempotent (cur : OpTraits) (traits : List (String × Payload)) :
    (mergeOverlayOp cur traits).idempotent = cur.idempotent := by
  cases h1 : dictGet? traits "pagination" <;>
    cases h2 : dictGet? traits "retry" <;>
      cases h3 : dictGet? traits "idempotency" <;>
        simp [mergeOverlayOp, h1, h2, h3]

theorem mergeOverlayOp_pagination_some (cur : OpTraits) (traits : List (String × Payload))
    (p : Payload) (h : dictGet? traits "pagination" = some p) :
    (mergeOverlayOp cur traits).pagination = some p := by
  cases h2 : dictGet? traits "retry" <;>
    cases h3 : dictGet? traits "idempotency" <;>
      simp [mergeOverlayOp, h, h2, h3]

theorem mergeOverlayOp_retry_some (cur : OpTraits) (traits : List (String × Payload))
    (p : Payload) (h : dictGet? traits "retry" = some p) :
    (mergeOverlayOp cur traits).retry = some p := by
  cases h1 : dictGet? traits "pagination" <;>
    cases h3 : dictGet? traits "idempotency" <;>
      simp [mergeOverlayOp, h, h1, h3]

theorem mergeOverlayOp_idempotency_some (cur : OpTraits) (traits : List (String × Payload))
    (p : Payload) (h : dictGet? traits "idempotency" = some p) :
    (mergeOverlayOp cur traits).idempotency = some p := by
  cases h1 : dictGet? traits "pagination" <;>
    cases h2 : dictGet? traits "retry" <;>
      simp [mergeOverlayOp, h, h1, h2]

theorem mergeOverlayOp_pagination_isSome (cur : OpTraits) (traits : List (String × Payload))
    (h : cur.pagination.isSome = true) :
    (mergeOverlayOp cur traits).pagination.isSome = true := by
  cases h1 : dictGet? traits "pagination" <;>
    cases h2 : dictGet? traits "retry" <;>
      cases h3 : dictGet? traits "idempotency" <;>
        simp [mergeOverlayOp, h1, h2, h3, h]

theorem mergeOverlayOp_eq_self (cur : OpTraits) (traits : List (String × Payload))
    (h1 : dictGet? traits "pagination" = none) (h2 : dictGet? traits "retry" = none)
    (h3 : dictGet? traits "idempotency" = none) : mergeOverlayOp cur traits = cur := by
  simp [mergeOverlayOp, h1, h2, h3]

theorem mergeOverlay_flags (ov : OverlayTraits) :
    ∀ (ops : List (String × OpTraits)) (n : String) (t : OpTraits),
      dictGet? ops n = some t →
      ∃ t', dictGet? (mergeOverlay ops ov) n = some t' ∧
        t'.readonly = t.readonly ∧ t'.idempotent = t.idempotent := by
  induction ov with
  | nil =>
    intro ops n t h
    exact ⟨t, h, rfl, rfl⟩
  | cons e rest ih =>
    intro ops n t h
    simp only [mergeOverlay, List.foldl_cons]
    by_cases he : e.1 = n
    · subst he
      have hget : (dictGet? ops e.1).getD {} = t := by rw [h]; rfl
      have hstep : dictGet? (mergeStep ops e) e.1 = some (mergeOverlayOp t e.2) := by
        simp only [mergeStep, hget]
        exact dictGet?_dictSet_self _ _ _
      obtain ⟨t', ht', hro, hid⟩ := ih (mergeStep ops e) _ _ hstep
      refine ⟨t', by simpa [mergeOverlay] using ht', ?_, ?_⟩
      · rw [hro, mergeOverlayOp_readonly]
      · rw [hid, mergeOverlayOp_idempotent]
    · have hstep : dictGet? (mergeStep ops e) n = some t := by
        simp only [mergeStep]
        rw [dictGet?_dictSet_ne _ _ _ _ (Ne.symm he)]
        exact h
      obtain ⟨t', ht', hro, hid⟩ := ih (mergeStep ops e) _ _ hstep
      exact ⟨t', by simpa [mergeOverlay] using ht', hro, hid⟩

theorem overlaysFold_flags (ovs : List (List ApplyMatch)) :
    ∀ (ops : List (String × OpTraits)) (n : String) (t : OpTraits),
      dictGet? ops n = some t →
      ∃ t', dictGet?
          (ovs.foldl (fun o ov => mergeOverlay o (extract_overlay_traits ov)) ops) n = some t' ∧
        t'.readonly = t.readonly ∧ t'.idempotent = t.idempotent := by
  induction ovs with
  | nil =>
    intro ops n t h
    exact ⟨t, h, rfl, rfl⟩
  | cons ov rest ih =>
    intro ops n t h
    simp only [List.foldl_cons]
    obtain ⟨t1, h1, hro1, hid1⟩ := mergeOverlay_flags (extract_overlay_traits ov) ops n t h
    obtain ⟨t2, h2, hro2, hid2⟩ := ih _ _ _ h1
    exact ⟨t2, h2, by rw [hro2, hro1], by rw [hid2, hid1]⟩

/-! ### Documentation-pagination lemmas -/

theorem proseStep_get_ne (ops : List (String × OpTraits)) (e : String × Payload)
    (n : String) (he : e.1 ≠ n) : dictGet? (proseStep ops e) n = dictGet? ops n := by
  simp only [proseStep]
  cases hg : dictGet? ops e.1 with
  | none => rfl
  | some t0 =>
    dsimp only
    by_cases hp : t0.pagination = none
    · rw [if_pos hp, dictGet?_dictSet_ne _ _ _ _ (Ne.symm he)]
    · rw [if_neg hp]

theorem applyDocPagination_flags (dp : List (String × Payload)) :
    ∀ (ops : List (String × OpTraits)) (n : String) (t : OpTraits),
      dictGet? ops n = some t →
      ∃ t', dictGet? (applyDocPagination ops dp) n = some t' ∧
        t'.readonly = t.readonly ∧ t'.idempotent = t.idempotent ∧
        t'.retry = t.retry ∧ t'.idempotency = t.idempotency := by
  induction dp with
  | nil =>
    intro ops n t h
    exact ⟨t, h, rfl, rfl, rfl, rfl⟩
  | cons e rest ih =>
    intro ops n t h
    simp only [applyDocPagination, List.foldl_cons]
    by_cases he : e.1 = n
    · subst he
      by_cases hp : t.pagination = none
      · have hstep : dictGet? (proseStep ops e) e.1 = some { t with pagination := some e.2 } := by
          simp only [proseStep, h, if_pos hp]
          exact dictGet?_dictSet_self _ _ _
        obtain ⟨t', ht', h1, h2, h3, h4⟩ := ih _ _ _ hstep
        exact ⟨t', by simpa [applyDocPagination] using ht', h1, h2, h3, h4⟩
      · have hstep : dictGet? (proseStep ops e) e.1 = some t := by
          simp [proseStep, h, hp]
        obtain ⟨t', ht', h1, h2, h3, h4⟩ := ih _ _ _ hstep
        exact ⟨t', by simpa [applyDocPagination] using ht', h1, h2, h3, h4⟩
    · have hstep : dictGet? (proseStep ops e) n = some t := by
        rw [proseStep_get_ne ops e n he]
        exact h
      obtain ⟨t', ht', h1, h2, h3, h4⟩ := ih _ _ _ hstep
      exact ⟨t', by simpa [applyDocPagination] using ht', h1, h2, h3, h4⟩

theorem applyDocPagination_keep (dp : List (String × Payload)) :
    ∀ (ops : List (String × OpTraits)) (n : String) (t : OpTraits),
      dictGet? ops n = some t → t.pagination ≠ none →
      dictGet? (applyDocPagination ops dp) n = some t := by
  induction dp with
  | nil =>
    intro ops n t h _
    simpa [applyDocPagination] using h
  | cons e rest ih =>
    intro ops n t h hp
    simp only [applyDocPagination, List.foldl_cons]
    have hstep : dictGet? (proseStep ops e) n = some t := by
      by_cases he : e.1 = n
      · subst he
        simp [proseStep, h, hp]
      · rw [proseStep_get_ne ops e n he]
        exact h
    simpa [applyDocPagination] using ih (proseStep ops e) n t hstep hp

theorem applyDocPagination_set (dp : List (String × Payload)) :
    ∀ (ops : List (String × OpTraits)) (n : String) (t : OpTraits) (p : Payload),
      dictGet? ops n = some t → t.pagination = none → dictGet? dp n = some p →
      dictGet? (applyDocPagination ops dp) n = some { t with pagination := some p } := by
  induction dp with
  | nil =>
    intro ops n t p _ _ hd
    simp [dictGet?] at hd
  | cons e rest ih =>
    obtain ⟨k, q⟩ := e
    intro ops n t p h hp hd
    simp only [applyDocPagination, List.foldl_cons]
    by_cases he : k = n
    · subst he
      have hp2 : q = p := by
        simpa [dictGet?] using hd
      subst hp2
      have hstep : dictGet? (proseStep ops (k, q)) k = some { t with pagination := some q } := by
        simp only [proseStep, h, if_pos hp]
        exact dictGet?_dictSet_self _ _ _
      have hne : ({ t with pagination := some q } : OpTraits).pagination ≠ none := by simp
      simpa [applyDocPagination] using
        applyDocPagination_keep rest (proseStep ops (k, q)) k _ hstep hne
    · have hd' : dictGet? rest n = some p := by
        simpa [dictGet?, he] using hd
      have hstep : dictGet? (proseStep ops (k, q)) n = some t := by
        rw [proseStep_get_ne ops (k, q) n he]
        exact h
      simpa [applyDocPagination] using ih (proseStep ops (k, q)) n t p hstep hp hd'

/-! ### Redaction lemmas -/

theorem sensFields_foldl_eq (sens : List String) (l : List MemberMatch) :
    ∀ acc : List String,
      l.foldl (fun acc m => if m.typeName ∈ sens then acc ++ ["$." ++ m.fieldName] else acc) acc
        = acc ++ (l.filter (fun m => decide (m.typeName ∈ sens))).map
            (fun m => "$." ++ m.fieldName) := by
  induction l with
  | nil =>
    intro acc
    simp
  | cons m rest ih =>
    intro acc
    by_cases hm : m.typeName ∈ sens
    · simp [hm, ih, List.filter_cons]
    · simp [hm, ih, List.filter_cons]

theorem sensFieldsOf_eq (members : List MemberMatch) (sens : List String) :
    sensFieldsOf members sens
      = (members.filter (fun m => decide (m.typeName ∈ sens))).map
          (fun m => "$." ++ m.fieldName) := by
  simpa [sensFieldsOf] using sensFields_foldl_eq sens members []

theorem redact_foldl_untouched (sens : List String) (rest : List StructMatch) :
    ∀ (acc : List (String × List String)) (n : String),
      (∀ s ∈ rest, s.name ≠ n) →
      dictGet? (rest.foldl (redactStep sens) acc) n = dictGet? acc n := by
  induction rest with
  | nil =>
    intro acc n _
    simp
  | cons x xs ih =>
    intro acc n h
    simp only [List.foldl_cons]
    rw [ih _ n (fun s hs => h s (List.mem_cons_of_mem _ hs))]
    simp only [redactStep]
    by_cases hf : sensFieldsOf x.members sens = []
    · rw [if_pos hf]
    · rw [if_neg hf, dictGet?_dictSet_ne _ _ _ _ (Ne.symm (h x (List.mem_cons_self _ _)))]

theorem redact_foldl_get (sens : List String) (ss : List StructMatch) :
    ∀ (acc : List (String × List String)) (s : StructMatch),
      s ∈ ss → (ss.map StructMatch.name).Nodup →
      dictGet? (ss.foldl (redactStep sens) acc) s.name =
        if sensFieldsOf s.members sens = [] then dictGet? acc s.name
        else some (sensFieldsOf s.members sens) := by
  induction ss with
  | nil =>
    intro acc s hs _
    simp at hs
  | cons x xs ih =>
    intro acc s hs hnd
    simp only [List.map_cons, List.nodup_cons] at hnd
    simp only [List.foldl_cons]
    rcases List.mem_cons.mp hs with rfl | hmem
    · have huntouched : ∀ s' ∈ xs, s'.name ≠ s.name := by
        intro s' hs' contra
        exact hnd.1 (contra ▸ List.mem_map_of_mem StructMatch.name hs')
      rw [redact_foldl_untouched sens xs _ _ huntouched]
      simp only [redactStep]
      by_cases hf : sensFieldsOf s.members sens = []
      · rw [if_pos hf, if_pos hf]
      · rw [if_neg hf, if_neg hf]
        exact dictGet?_dictSet_self _ _ _
    · have hxname : x.name ≠ s.name := by
        intro contra
        exact hnd.1 (contra ▸ List.mem_map_of_mem StructMatch.name hmem)
      rw [ih _ s hmem hnd.2]
      by_cases hf : sensFieldsOf s.members sens = []
      · rw [if_pos hf, if_pos hf]
        simp only [redactStep]
        by_cases hfx : sensFieldsOf x.members sens = []
        · rw [if_pos hfx]
        · rw [if_neg hfx, dictGet?_dictSet_ne _ _ _ _ (Ne.symm hxname)]
      · rw [if_neg hf, if_neg hf]

theorem extract_structures_get (ss : List StructMatch) (sens : List String)
    (s : StructMatch) (hs : s ∈ ss) (hnd : (ss.map StructMatch.name).Nodup) :
    dictGet? (extract_structures_with_sensitive_fields ss sens) s.name =
      if sensFieldsOf s.members sens = [] then none
      else some (sensFieldsOf s.members sens) := by
  have h := redact_foldl_get sens ss [] s hs hnd
  simp only [extract_structures_with_sensitive_fields]
  rw [h]
  by_cases hf : sensFieldsOf s.members sens = []
  · rw [if_pos hf, if_pos hf]
    rfl
  · rw [if_neg hf, if_neg hf]

theorem nodup_keys_extract_structures (ss : List StructMatch) (sens : List String) :
    ((extract_structures_with_sensitive_fields ss sens).map Prod.fst).Nodup := by
  refine foldl_keys_nodup (redactStep sens) ?_ ss [] (by simp)
  intro d x hd
  simp only [redactStep]
  by_cases hf : sensFieldsOf x.members sens = []
  · rw [if_pos hf]
    exact hd
  · rw [if_neg hf]
    exact nodup_keys_dictSet _ _ _ hd

/-! ### Final formatting lemmas -/

theorem formatOp_idempotent_flag (t : OpTraits) (h : truthy t.idempotent = true) :
    (formatOp t).idempotent = some (Value.bool true) := by
  cases hp : t.pagination <;> cases hr : t.retry <;>
    by_cases hro : truthy t.readonly = true <;>
      simp [formatOp, h, hp, hr, hro]

theorem formatOp_idempotent_overlay (t : OpTraits) (p : Payload)
    (h : truthy t.idempotent = false) (hp : t.idempotency = some p) :
    (formatOp t).idempotent = some ((dictGet? p "supported").getD (Value.bool false)) := by
  cases hpg : t.pagination <;> cases hr : t.retry <;>
    by_cases hro : truthy t.readonly = true <;>
      simp [formatOp, h, hp, hpg, hr, hro]

theorem formatOp_retry_default (t : OpTraits) (h : t.retry = none) :
    (formatOp t).retry = some (if truthy t.readonly then
        [("max", Value.int 3), ("base_delay_seconds", Value.int 1), ("backoff", Value.str "exp+jitter")]
      else [("max", Value.int 0)]) := by
  cases hpg : t.pagination <;> cases hid : t.idempotency <;>
    by_cases hro : truthy t.readonly = true <;>
      by_cases hi : truthy t.idempotent = true <;>
        simp [formatOp, h, hpg, hid, hro, hi]

theorem formatOp_retry_some (t : OpTraits) (p : Payload) (h : t.retry = some p) :
    (formatOp t).retry = some p := by
  cases hpg : t.pagination <;> cases hid : t.idempotency <;>
    by_cases hro : truthy t.readonly = true <;>
      by_cases hi : truthy t.idempotent = true <;>
        simp [formatOp, h, hpg, hid, hro, hi]

theorem formatOp_retry_isSome (t : OpTraits) : (formatOp t).retry.isSome = true := by
  cases h : t.retry with
  | none => rw [formatOp_retry_default t h]; rfl
  | some p => rw [formatOp_retry_some t p h]; rfl

theorem formatOp_pagination (t : OpTraits) : (formatOp t).pagination = t.pagination := by
  cases hpg : t.pagination <;> cases hr : t.retry <;> cases hid : t.idempotency <;>
    by_cases hro : truthy t.readonly = true <;>
      by_cases hi : truthy t.idempotent = true <;>
        simp [formatOp, hpg, hr, hid, hro, hi]

/-! ### Lemmas about the assembled model -/

theorem build_operations_def (inp : SpecInput) :
    (build_behavior_model inp).operations =
      (sortBy (fun a b => strLe a.1 b.1)
        (applyDocPagination
          (inp.overlays.foldl (fun ops ov => mergeOverlay ops (extract_overlay_traits ov))
            (extract_operations_with_traits inp.opMatches))
          (detect_pagination_from_docs inp.pagMatches))).map (fun e => (e.1, formatOp e.2)) :=
  rfl

theorem build_sensitiveTypes_def (inp : SpecInput) :
    (build_behavior_model inp).sensitiveTypes =
      sortBy strLe (extract_sensitive_types inp.sensMatches) :=
  rfl

theorem build_redaction_def (inp : SpecInput) :
    (build_behavior_model inp).redaction =
      extract_structures_with_sensitive_fields inp.structMatches
        (extract_sensitive_types inp.sensMatches) :=
  rfl

theorem mem_final_of_mem (l : List (String × OpTraits)) (n : String) (t : OpTraits)
    (h : (n, t) ∈ l) :
    (n, formatOp t) ∈ (sortBy (fun a b => strLe a.1 b.1) l).map (fun e => (e.1, formatOp e.2)) :=
  List.mem_map.mpr ⟨(n, t), (perm_sortBy _ l).mem_iff.mpr h, rfl⟩

theorem mergeStep_keys (ops : List (String × OpTraits)) (e : String × List (String × Payload))
    (n : String) (h : n ∈ ops.map Prod.fst) : n ∈ (mergeStep ops e).map Prod.fst :=
  (mem_keys_dictSet _ _ _ _).mpr (Or.inr h)

theorem mem_keys_mergeOverlay_right (ov : OverlayTraits) (ops : List (String × OpTraits))
    (n : String) (h : n ∈ ops.map Prod.fst) : n ∈ (mergeOverlay ops ov).map Prod.fst :=
  foldl_keys_mono mergeStep (fun d x m hm => mergeStep_keys d x m hm) ov ops n h

theorem mem_keys_mergeOverlay_left (ov : OverlayTraits) :
    ∀ (ops : List (String × OpTraits)) (n : String),
      n ∈ ov.map Prod.fst → n ∈ (mergeOverlay ops ov).map Prod.fst := by
  induction ov with
  | nil =>
    intro ops n h
    simp at h
  | cons e rest ih =>
    intro ops n h
    simp only [List.map_cons, List.mem_cons] at h
    simp only [mergeOverlay, List.foldl_cons]
    rcases h with rfl | h
    · have hin : e.1 ∈ (mergeStep ops e).map Prod.fst :=
        (mem_keys_dictSet _ _ _ _).mpr (Or.inl rfl)
      exact foldl_keys_mono mergeStep (fun d x m hm => mergeStep_keys d x m hm) rest _ _ hin
    · simpa [mergeOverlay] using ih (mergeStep ops e) n h

theorem proseStep_keys (ops : List (String × OpTraits)) (e : String × Payload)
    (n : String) (h : n ∈ ops.map Prod.fst) : n ∈ (proseStep ops e).map Prod.fst := by
  simp only [proseStep]
  cases hg : dictGet? ops e.1 with
  | none => exact h
  | some t0 =>
    dsimp only
    by_cases hp : t0.pagination = none
    · rw [if_pos hp]
      exact (mem_keys_dictSet _ _ _ _).mpr (Or.inr h)
    · rw [if_neg hp]
      exact h

theorem mem_keys_applyDocPagination (dp : List (String × Payload))
    (ops : List (String × OpTraits)) (n : String) (h : n ∈ ops.map Prod.fst) :
    n ∈ (applyDocPagination ops dp).map Prod.fst :=
  foldl_keys_mono proseStep (fun d x m hm => proseStep_keys d x m hm) dp ops n h

theorem mem_keys_overlaysFold (ovs : List (List ApplyMatch)) :
    ∀ (ops : List (String × OpTraits)) (n : String),
      ((∃ ov ∈ ovs, n ∈ (extract_overlay_traits ov).map Prod.fst) ∨ n ∈ ops.map Prod.fst) →
      n ∈ ((ovs.foldl (fun o ov => mergeOverlay o (extract_overlay_traits ov)) ops).map
        Prod.fst) := by
  induction ovs with
  | nil =>
    intro ops n h
    rcases h with ⟨ov, hov, _⟩ | h
    · simp at hov
    · simpa using h
  | cons ov rest ih =>
    intro ops n h
    simp only [List.foldl_cons]
    rcases h with ⟨ov', hov', hn⟩ | h
    · rcases List.mem_cons.mp hov' with rfl | hmem
      · exact ih _ n (Or.inr (mem_keys_mergeOverlay_left _ _ _ hn))
      · exact ih _ n (Or.inl ⟨ov', hmem, hn⟩)
    · exact ih _ n (Or.inr (mem_keys_mergeOverlay_right _ _ _ h))

theorem mem_keys_sorted_map (l : List (String × OpTraits)) (n : String)
    (h : n ∈ l.map Prod.fst) :
    n ∈ (((sortBy (fun a b => strLe a.1 b.1) l).map (fun e => (e.1, formatOp e.2))).map
      Prod.fst) := by
  rcases List.mem_map.mp h with ⟨e, hmem, heq⟩
  exact List.mem_map.mpr
    ⟨(e.1, formatOp e.2), List.mem_map.mpr ⟨e, (perm_sortBy _ l).mem_iff.mpr hmem, rfl⟩, heq⟩

theorem sorted_build_operations (inp : SpecInput) :
    ((build_behavior_model inp).operations.map Prod.fst).Pairwise (· ≤ ·) := by
  rw [build_operations_def, List.map_map]
  have hpw := pairwise_sortBy (fun a b : String × OpTraits => strLe a.1 b.1)
    (fun a b => strLe_total a.1 b.1)
    (fun a b c h1 h2 => strLe_trans a.1 b.1 c.1 h1 h2)
    (applyDocPagination
      (inp.overlays.foldl (fun ops ov => mergeOverlay ops (extract_overlay_traits ov))
        (extract_operations_with_traits inp.opMatches))
      (detect_pagination_from_docs inp.pagMatches))
  refine List.pairwise_map.mpr (hpw.imp ?_)
  intro a b h
  exact (strLe_iff _ _).mp h

theorem sorted_build_sensitiveTypes (inp : SpecInput) :
    ((build_behavior_model inp).sensitiveTypes).Pairwise (· ≤ ·) := by
  rw [build_sensitiveTypes_def]
  have hpw := pairwise_sortBy strLe strLe_total strLe_trans
    (extract_sensitive_types inp.sensMatches)
  refine hpw.imp ?_
  intro a b h
  exact (strLe_iff _ _).mp h

/-! ### Claim theorems -/

/-- C1: an operation whose surviving declaration in the primary document
carries the direct `@idempotent` marker ends up with `idempotent = true` in
the final model, regardless of any overlay `idempotency` trait; and an
operation record without the direct marker but with an overlay `idempotency`
trait gets the trait's `supported` sub-key value as its final idempotent
flag, defaulting to `false` when that key is absent from the payload. -/
theorem c1_idempotent_precedence :
    (∀ (inp : SpecInput) (n : String) (m : OpMatch),
      lastScan inp.opMatches n = some m →
      containsSubstr m.traitsBlock "@idempotent" = true →
      ∃ e, (n, e) ∈ (build_behavior_model inp).operations ∧
        e.idempotent = some (Value.bool true)) ∧
    (∀ (t : OpTraits), truthy t.idempotent = false →
      ∀ p : Payload, t.idempotency = some p →
        (formatOp t).idempotent = some ((dictGet? p "supported").getD (Value.bool false)) ∧
        (dictGet? p "supported" = none →
          (formatOp t).idempotent = some (Value.bool false))) := by
  constructor
  · intro inp n m hlast hmark
    have hget : dictGet? (extract_operations_with_traits inp.opMatches) n
        = some (opInfoOf m.traitsBlock) := by
      rw [extractOps_get, hlast]
    obtain ⟨t1, h1, _, hid1⟩ := overlaysFold_flags inp.overlays _ n _ hget
    obtain ⟨t2, h2, _, hid2, _, _⟩ :=
      applyDocPagination_flags (detect_pagination_from_docs inp.pagMatches) _ n t1 h1
    have hidem : t2.idempotent = some true := by
      rw [hid2, hid1, opInfoOf_idempotent, if_pos hmark]
    refine ⟨formatOp t2, ?_, ?_⟩
    · rw [build_operations_def]
      exact mem_final_of_mem _ n t2 (mem_of_dictGet? _ _ _ h2)
    · apply formatOp_idempotent_flag
      rw [hidem]
      rfl
  · intro t h p hp
    refine ⟨formatOp_idempotent_overlay t p h hp, ?_⟩
    intro hs
    rw [formatOp_idempotent_overlay t p h hp, hs]
    rfl

theorem c1_witness :
    (∃ e, ("Op", e) ∈ (build_behavior_model
        { opMatches := [⟨"@idempotent\n", "Op"⟩], pagMatches := [], sensMatches := [],
          structMatches := [],
          overlays := [[⟨"Op", "idempotency", [⟨"supported", RawValue.word "false"⟩]⟩]] }).operations ∧
      e.idempotent = some (Value.bool true)) ∧
    (formatOp { idempotency := some [("supported", Value.bool true)] }).idempotent
      = some ((dictGet? [("supported", Value.bool true)] "supported").getD (Value.bool false)) :=
  ⟨c1_idempotent_precedence.1 _ "Op" ⟨"@idempotent\n", "Op"⟩ (by decide) (by decide),
   (c1_idempotent_precedence.2 { idempotency := some [("supported", Value.bool true)] } rfl
      [("supported", Value.bool true)] rfl).1⟩

/-- C2: an operation record with no `retry` trait gets the synthesized default
policy — `{max: 3, base_delay_seconds: 1, backoff: "exp+jitter"}` when its
readonly flag is truthy, `{max: 0}` otherwise — and consequently every
operation entry of the final model carries a retry object. -/
theorem c2_retry_default :
    (∀ t : OpTraits, t.retry = none →
      (formatOp t).retry = some (if truthy t.readonly then
          [("max", Value.int 3), ("base_delay_seconds", Value.int 1), ("backoff", Value.str "exp+jitter")]
        else [("max", Value.int 0)])) ∧
    (∀ (inp : SpecInput) (n : String) (e : OpEntry),
      (n, e) ∈ (build_behavior_model inp).operations → e.retry.isSome = true) := by
  constructor
  · exact formatOp_retry_default
  · intro inp n e hmem
    rw [build_operations_def] at hmem
    rcases List.mem_map.mp hmem with ⟨⟨n', t⟩, _, heq⟩
    cases heq
    exact formatOp_retry_isSome t

theorem c2_witness :
    (formatOp { readonly := some true }).retry
      = some [("max", Value.int 3), ("base_delay_seconds", Value.int 1), ("backoff", Value.str "exp+jitter")] ∧
    (formatOp {}).retry = some [("max", Value.int 0)] ∧
    ({ retry := some [("max", Value.int 0)] } : OpEntry).retry.isSome = true :=
  ⟨by simpa using c2_retry_default.1 { readonly := some true } rfl,
   by simpa using c2_retry_default.1 {} rfl,
   c2_retry_default.2
     { opMatches := [⟨"", "A"⟩], pagMatches := [], sensMatches := [], structMatches := [],
       overlays := [] } "A" _ (by decide)⟩

/-- C3 counterexample: two overlay documents both apply a `pagination` trait to
the same operation; the final model keeps the later-processed document's
value, so the earlier (allegedly higher-precedence) value is NOT preserved. -/
theorem c3_counterexample :
    dictGet? ((build_behavior_model
        { opMatches := [⟨"", "Op"⟩], pagMatches := [], sensMatches := [], structMatches := [],
          overlays := [[⟨"Op", "pagination", [⟨"style", RawValue.quoted "link"⟩]⟩],
                       [⟨"Op", "pagination", [⟨"style", RawValue.quoted "page"⟩]⟩]] }).operations)
        "Op"
      = some { pagination := some [("style", Value.str "page")],
               retry := some [("max", Value.int 0)] } ∧
    dictGet? ((build_behavior_model
        { opMatches := [⟨"", "Op"⟩], pagMatches := [], sensMatches := [], structMatches := [],
          overlays := [[⟨"Op", "pagination", [⟨"style", RawValue.quoted "link"⟩]⟩],
                       [⟨"Op", "pagination", [⟨"style", RawValue.quoted "page"⟩]⟩]] }).operations)
        "Op"
      ≠ some { pagination := some [("style", Value.str "link")],
               retry := some [("max", Value.int 0)] } := by
  constructor
  · decide
  · decide

/-- C3 (amended): the per-operation overlay merge is an unconditional
overwrite — whenever the merged document supplies a `pagination`, `retry` or
`idempotency` trait for an operation, the merged record carries that value
regardless of what was already present, so for each (operation, trait) pair
the value of the last-processed overlay document supplying it wins. -/
theorem c3_amended :
    ∀ (cur : OpTraits) (traits : List (String × Payload)) (p : Payload),
      (dictGet? traits "pagination" = some p → (mergeOverlayOp cur traits).pagination = some p) ∧
      (dictGet? traits "retry" = some p → (mergeOverlayOp cur traits).retry = some p) ∧
      (dictGet? traits "idempotency" = some p →
        (mergeOverlayOp cur traits).idempotency = some p) :=
  fun cur traits p =>
    ⟨mergeOverlayOp_pagination_some cur traits p,
     mergeOverlayOp_retry_some cur traits p,
     mergeOverlayOp_idempotency_some cur traits p⟩

theorem c3_witness :
    (mergeOverlayOp { pagination := some [("style", Value.str "link")] }
        [("pagination", [("style", Value.str "page")])]).pagination
      = some [("style", Value.str "page")] :=
  (c3_amended { pagination := some [("style", Value.str "link")] }
      [("pagination", [("style", Value.str "page")])] [("style", Value.str "page")]).1
    (by decide)

/-- C4 counterexample: a quoted string whose contents are digits does NOT
remain a string — the parser converts it to an integer. -/
theorem c4_counterexample :
    parseTraitValue (RawValue.quoted "5") = Value.int 5 ∧
    parseTraitValue (RawValue.quoted "5") ≠ Value.str "5" := by
  constructor
  · decide
  · decide

/-- C4 (amended): value conversion inspects only the captured text, not the
capture group: any value whose text is a digit run becomes an integer, text
exactly `true`/`false` becomes a boolean (also when quoted), and all other
values stay strings; in particular quoting never protects a value from
conversion. -/
theorem c4_amended :
    ∀ s : String,
      (parseTraitValue (RawValue.quoted s) = parseTraitValue (RawValue.word s)) ∧
      (parseTraitValue (RawValue.quoted s) = parseTraitValue (RawValue.digits s)) ∧
      ((s.length > 0 && s.data.all Char.isDigit) = true →
        parseTraitValue (RawValue.quoted s) = Value.int (strToNat s)) ∧
      ((s.length > 0 && s.data.all Char.isDigit) = false → s ≠ "true" → s ≠ "false" →
        parseTraitValue (RawValue.quoted s) = Value.str s) ∧
      (parseTraitValue (RawValue.word "true") = Value.bool true) ∧
      (parseTraitValue (RawValue.word "false") = Value.bool false) ∧
      (parseTraitValue (RawValue.quoted "true") = Value.bool true) ∧
      (parseTraitValue (RawValue.quoted "false") = Value.bool false) := by
  intro s
  refine ⟨rfl, rfl, ?_, ?_, by decide, by decide, by decide, by decide⟩
  · intro h
    simp [parseTraitValue, RawValue.text, h]
  · intro h h1 h2
    simp [parseTraitValue, RawValue.text, h, h1, h2]

theorem c4_witness :
    parseTraitValue (RawValue.quoted "42") = Value.int (strToNat "42") ∧
    parseTraitValue (RawValue.quoted "link") = Value.str "link" :=
  ⟨(c4_amended "42").2.2.1 (by decide),
   (c4_amended "link").2.2.2.1 (by decide) (by decide) (by decide)⟩

/-- C5: a structure declaration with at least one member whose type is in the
sensitive-type set yields exactly one redaction entry listing every
qualifying member as `$.<fieldName>` in declaration order and no
non-qualifying member; a structure with zero qualifying members has no key
at all.  Structure names are assumed pairwise distinct, as a repeated name
would collapse onto a single dictionary key. -/
theorem c5_redaction :
    ∀ (ss : List StructMatch) (sens : List String) (s : StructMatch),
      (ss.map StructMatch.name).Nodup → s ∈ ss →
      ((s.members.filter (fun m => decide (m.typeName ∈ sens))) ≠ [] →
        dictGet? (extract_structures_with_sensitive_fields ss sens) s.name
          = some ((s.members.filter (fun m => decide (m.typeName ∈ sens))).map
              (fun m => "$." ++ m.fieldName))) ∧
      ((s.members.filter (fun m => decide (m.typeName ∈ sens))) = [] →
        dictGet? (extract_structures_with_sensitive_fields ss sens) s.name = none) ∧
      ((extract_structures_with_sensitive_fields ss sens).map Prod.fst).Nodup := by
  intro ss sens s hnd hs
  have hget := extract_structures_get ss sens s hs hnd
  rw [sensFieldsOf_eq] at hget
  refine ⟨?_, ?_, nodup_keys_extract_structures ss sens⟩
  · intro hne
    have hmapne : ((s.members.filter (fun m => decide (m.typeName ∈ sens))).map
        (fun m => "$." ++ m.fieldName)) ≠ [] := by
      simpa using hne
    rw [hget, if_neg hmapne]
  · intro he
    rw [hget, if_pos (by rw [he]; rfl)]

theorem c5_witness :
    dictGet? (extract_structures_with_sensitive_fields
        [⟨"Person", [⟨"name", "PersonName"⟩, ⟨"age", "Integer"⟩]⟩, ⟨"Other", [⟨"x", "Integer"⟩]⟩]
        ["PersonName"]) "Person"
      = some ((([⟨"name", "PersonName"⟩, ⟨"age", "Integer"⟩] : List MemberMatch).filter
          (fun m => decide (m.typeName ∈ (["PersonName"] : List String)))).map
            (fun m => "$." ++ m.fieldName)) ∧
    dictGet? (extract_structures_with_sensitive_fields
        [⟨"Person", [⟨"name", "PersonName"⟩, ⟨"age", "Integer"⟩]⟩, ⟨"Other", [⟨"x", "Integer"⟩]⟩]
        ["PersonName"]) "Other"
      = none :=
  ⟨(c5_redaction
      [⟨"Person", [⟨"name", "PersonName"⟩, ⟨"age", "Integer"⟩]⟩, ⟨"Other", [⟨"x", "Integer"⟩]⟩]
      ["PersonName"] ⟨"Person", [⟨"name", "PersonName"⟩, ⟨"age", "Integer"⟩]⟩
      (by decide) (by decide)).1 (by decide),
   ((c5_redaction
      [⟨"Person", [⟨"name", "PersonName"⟩, ⟨"age", "Integer"⟩]⟩, ⟨"Other", [⟨"x", "Integer"⟩]⟩]
      ["PersonName"] ⟨"Other", [⟨"x", "Integer"⟩]⟩
      (by decide) (by decide)).2).1 (by decide)⟩

/-- C6: a record that already carries a pagination value (in particular one
set by an overlay trait, which the merge always installs and later merges
keep non-empty) passes the documentation-pagination step entirely unchanged —
the prose signal is overridden, never merged or duplicated; only a record
whose pagination is absent receives the prose descriptor. -/
theorem c6_prose_pagination :
    (∀ (ops : List (String × OpTraits)) (dp : List (String × Payload)) (n : String)
        (t : OpTraits), dictGet? ops n = some t →
      (t.pagination ≠ none → dictGet? (applyDocPagination ops dp) n = some t) ∧
      (t.pagination = none → ∀ p, dictGet? dp n = some p →
        dictGet? (applyDocPagination ops dp) n = some { t with pagination := some p })) ∧
    (∀ (cur : OpTraits) (traits : List (String × Payload)) (p : Payload),
      dictGet? traits "pagination" = some p → (mergeOverlayOp cur traits).pagination = some p) ∧
    (∀ (cur : OpTraits) (traits : List (String × Payload)),
      cur.pagination.isSome = true → (mergeOverlayOp cur traits).pagination.isSome = true) :=
  ⟨fun ops dp n t h =>
    ⟨fun hp => applyDocPagination_keep dp ops n t h hp,
     fun hp p hd => applyDocPagination_set dp ops n t p h hp hd⟩,
   fun cur traits p h => mergeOverlayOp_pagination_some cur traits p h,
   fun cur traits h => mergeOverlayOp_pagination_isSome cur traits h⟩

theorem c6_witness :
    dictGet? (applyDocPagination [("A", { pagination := some [("style", Value.str "page")] })]
        [("A", [("style", Value.str "link")])]) "A"
      = some { pagination := some [("style", Value.str "page")] } ∧
    dictGet? (applyDocPagination [("B", ({} : OpTraits))]
        [("B", [("style", Value.str "link")])]) "B"
      = some { pagination := some [("style", Value.str "link")] } :=
  ⟨(c6_prose_pagination.1 [("A", { pagination := some [("style", Value.str "page")] })]
      [("A", [("style", Value.str "link")])] "A" _ (by decide)).1 (by decide),
   (c6_prose_pagination.1 [("B", ({} : OpTraits))] [("B", [("style", Value.str "link")])]
      "B" {} (by decide)).2 rfl [("style", Value.str "link")] (by decide)⟩

/-- C7: the trait scanner yields an entry for every matched operation header,
even with zero annotation markers; it sets `readonly`/`idempotent` to `true`
exactly when the corresponding marker occurs in the captured annotation
block, and never materializes a `false` value; and every produced entry comes
from some matched header's annotation block. -/
theorem c7_flag_scanner :
    (∀ (ms : List OpMatch) (m : OpMatch), m ∈ ms →
      (dictGet? (extract_operations_with_traits ms) m.name).isSome = true) ∧
    (∀ tb : String,
      (opInfoOf tb).readonly = (if containsSubstr tb "@readonly" then some true else none) ∧
      (opInfoOf tb).idempotent = (if containsSubstr tb "@idempotent" then some true else none) ∧
      (opInfoOf tb).readonly ≠ some false ∧ (opInfoOf tb).idempotent ≠ some false) ∧
    (∀ (ms : List OpMatch) (n : String) (e : OpTraits),
      dictGet? (extract_operations_with_traits ms) n = some e →
      ∃ m, m ∈ ms ∧ m.name = n ∧ e = opInfoOf m.traitsBlock) := by
  refine ⟨?_, ?_, ?_⟩
  · intro ms m hm
    rw [extractOps_get]
    cases h : lastScan ms m.name with
    | none =>
      have h2 := lastScan_isSome ms m hm
      rw [h] at h2
      simp at h2
    | some r => simp
  · intro tb
    refine ⟨opInfoOf_readonly tb, opInfoOf_idempotent tb, ?_, ?_⟩
    · rw [opInfoOf_readonly]
      by_cases h : containsSubstr tb "@readonly" = true <;> simp [h]
    · rw [opInfoOf_idempotent]
      by_cases h : containsSubstr tb "@idempotent" = true <;> simp [h]
  · intro ms n e he
    rw [extractOps_get] at he
    cases h : lastScan ms n with
    | none =>
      rw [h] at he
      simp at he
    | some m =>
      rw [h] at he
      simp only [Option.some.injEq] at he
      obtain ⟨hmem, hname⟩ := lastScan_mem ms n m h
      exact ⟨m, hmem, hname, he.symm⟩

theorem c7_witness :
    (dictGet? (extract_operations_with_traits [⟨"", "Op"⟩]) "Op").isSome = true ∧
    (opInfoOf "").readonly = (if containsSubstr "" "@readonly" then some true else none) ∧
    (∃ m, m ∈ [(⟨"@readonly\n", "A"⟩ : OpMatch)] ∧ m.name = "A" ∧
      ({ readonly := some true } : OpTraits) = opInfoOf m.traitsBlock) :=
  ⟨c7_flag_scanner.1 [⟨"", "Op"⟩] ⟨"", "Op"⟩ (by decide),
   ((c7_flag_scanner.2).1 "").1,
   (c7_flag_scanner.2).2 [⟨"@readonly\n", "A"⟩] "A" { readonly := some true } (by decide)⟩

/-- C8: an apply statement targeting an operation name that was never declared
does not make the assembler fail — an empty record is created for the name
and it surfaces as a key of the final model's operations map. -/
theorem c8_unknown_target :
    ∀ (inp : SpecInput) (doc : List ApplyMatch) (m : ApplyMatch),
      doc ∈ inp.overlays → m ∈ doc →
      m.target ∈ ((build_behavior_model inp).operations).map Prod.fst := by
  intro inp doc m hdoc hm
  rw [build_operations_def]
  apply mem_keys_sorted_map
  apply mem_keys_applyDocPagination
  apply mem_keys_overlaysFold
  exact Or.inl ⟨doc, hdoc, mem_keys_extract_overlay doc m hm⟩

theorem c8_witness :
    "X" ∈ ((build_behavior_model
      { opMatches := [], pagMatches := [], sensMatches := [], structMatches := [],
        overlays := [[⟨"X", "foo", []⟩]] }).operations).map Prod.fst :=
  c8_unknown_target _ [⟨"X", "foo", []⟩] ⟨"X", "foo", []⟩ (by decide) (by decide)

/-- C9: the assembler is a pure function of the match streams, so two runs on
the same input produce the same model (determinism is definitional in the
embedding; the JSON serializer is deterministic and out of scope); moreover
the operations map is keyed in lexicographically sorted order and the
sensitive-type list is sorted lexicographically. -/
theorem c9_deterministic_sorted :
    ∀ inp : SpecInput,
      build_behavior_model inp = build_behavior_model inp ∧
      ((build_behavior_model inp).operations.map Prod.fst).Pairwise (· ≤ ·) ∧
      ((build_behavior_model inp).sensitiveTypes).Pairwise (· ≤ ·) :=
  fun inp => ⟨rfl, sorted_build_operations inp, sorted_build_sensitiveTypes inp⟩

/-- C10 counterexample: an apply statement carrying only an unknown trait name
(`foo`) does change the final model when its target was never declared — the
target appears as a fresh operations key — so "has no effect on the final
model" fails as stated. -/
theorem c10_counterexample :
    (build_behavior_model
      { opMatches := [], pagMatches := [], sensMatches := [],
        structMatches := [], overlays := [] }).operations = [] ∧
    (build_behavior_model
      { opMatches := [], pagMatches := [], sensMatches := [],
        structMatches := [],
        overlays := [[⟨"X", "foo", [⟨"a", RawValue.digits "1"⟩]⟩]] }).operations
      = [("X", { retry := some [("max", Value.int 0)] })] := by
  constructor
  · decide
  · decide

/-- C10 (amended): only the `pagination`, `retry` and `idempotency` structured
traits are merged into an operation's record; an apply statement carrying any
other trait name (including `readonly` or `idempotent`) contributes nothing
to the record — its only possible effect is that the merge ensures the target
name has a (possibly empty) record — so overlays can never set the readonly
flag or the direct idempotent flag. -/
theorem c10_amended :
    ∀ (cur : OpTraits) (traits : List (String × Payload)),
      ((mergeOverlayOp cur traits).readonly = cur.readonly ∧
        (mergeOverlayOp cur traits).idempotent = cur.idempotent) ∧
      (dictGet? traits "pagination" = none → dictGet? traits "retry" = none →
        dictGet? traits "idempotency" = none → mergeOverlayOp cur traits = cur) :=
  fun cur traits =>
    ⟨⟨mergeOverlayOp_readonly cur traits, mergeOverlayOp_idempotent cur traits⟩,
     fun h1 h2 h3 => mergeOverlayOp_eq_self cur traits h1 h2 h3⟩

theorem c10_witness :
    mergeOverlayOp { readonly := some true } [("foo", [("a", Value.int 1)])]
      = { readonly := some true } :=
  (c10_amended { readonly := some true } [("foo", [("a", Value.int 1)])]).2
    (by decide) (by decide) (by decide)
